import Mathlib

/-!
Verification development for the hybrid retrieval subsystem of the
`synapse` repository (code chunking, vector store, BM25 keyword search,
score fusion).  Python floats are modelled as rationals (the fusion and
normalization arithmetic is exact linear arithmetic), Python strings as
lists of characters, and the external collaborators (Qdrant backend,
sentence-transformer model, `rank_bm25`, LangChain text splitter) are
modelled explicitly where their behaviour decides a claim.
-/

set_option maxRecDepth 20000

namespace Synapse

/-- A search result as passed around `hybrid_retriever.py`: a document id and
a score.  The source uses dicts `{"id": ..., "score": ...}`; payload fields
are irrelevant to scoring/ranking and are modelled separately where needed. -/
structure SearchResult where
  id : Nat
  score : ℚ
deriving DecidableEq, Repr

/-- `min(scores)` for the non-empty score list of `x :: xs`. -/
def minScore (x : SearchResult) (xs : List SearchResult) : ℚ :=
  (xs.map SearchResult.score).foldl min x.score

/-- `max(scores)` for the non-empty score list of `x :: xs`. -/
def maxScore (x : SearchResult) (xs : List SearchResult) : ℚ :=
  (xs.map SearchResult.score).foldl max x.score

/-- Model of `normalize_scores` (inner function of `HybridRetriever._fuse_scores`,
`src/core/rag/hybrid_retriever.py` lines 225-241): an empty list is returned
unchanged; otherwise min-max scaling, with the all-equal case mapped to `1.0`.
The source stores the result under a separate `normalized_score` key, which is
the only score consumed downstream of normalization, so we model it as
replacing `score`. -/
def normalizeScores : List SearchResult → List SearchResult
  | [] => []
  | x :: xs =>
    if maxScore x xs = minScore x xs then
      (x :: xs).map fun r => { r with score := 1 }
    else
      (x :: xs).map fun r =>
        { r with score := (r.score - minScore x xs) / (maxScore x xs - minScore x xs) }

/-- Last-occurrence-wins lookup, modelling the Python dict comprehension
`{r['id']: r for r in results}` followed by `.get(id)`. -/
def dictFind (l : List SearchResult) (i : Nat) : Option SearchResult :=
  l.reverse.find? (fun r => r.id == i)

/-- `lookup.get(doc_id, {}).get('normalized_score', 0.0)`: the normalized
score of document `i` in `l`, defaulting to `0` when absent. -/
def nScore (l : List SearchResult) (i : Nat) : ℚ :=
  ((dictFind l i).map SearchResult.score).getD 0

/-- Model of `HybridRetriever._fuse_scores` (lines 210-292): normalize both
result sets, emit one fused entry per BM25 result (the vector side defaulting
to `0.0` via `nScore`), then append the vector-only results (`bm25_score = 0.0`). -/
def fuseScores (bm25 vec : List SearchResult) (alpha : ℚ) : List SearchResult :=
  (normalizeScores bm25).map (fun r =>
    { id := r.id, score := (1 - alpha) * r.score + alpha * nScore (normalizeScores vec) r.id
      : SearchResult }) ++
  ((normalizeScores vec).filter fun r =>
      !((normalizeScores bm25).any fun s => s.id == r.id)).map (fun r =>
    { id := r.id, score := (1 - alpha) * 0 + alpha * r.score : SearchResult })

/-- Stable insertion into a descending-sorted list: the incoming element (which
originates earlier in the traversal of `sortDesc`) is placed before the first
entry whose score does not exceed it. -/
def insertDesc (x : SearchResult) : List SearchResult → List SearchResult
  | [] => [x]
  | y :: ys => if y.score ≤ x.score then x :: y :: ys else y :: insertDesc x ys

/-- Stable descending sort by score, modelling Python's stable
`results.sort(key=lambda x: x['score'], reverse=True)` (equal scores keep
their original relative order). -/
def sortDesc : List SearchResult → List SearchResult
  | [] => []
  | x :: xs => insertDesc x (sortDesc xs)

/-- The ranking `HybridRetriever.search` builds before truncation (lines
176-180): fuse both candidate lists, then stable-sort by fused score
descending. -/
def hybridFuseRank (bm25 vec : List SearchResult) (alpha : ℚ) : List SearchResult :=
  sortDesc (fuseScores bm25 vec alpha)

/-! ### Elementary facts about the score fold, normalization and lookup -/

lemma foldl_min_le_init (a : ℚ) (l : List ℚ) : l.foldl min a ≤ a := by
  induction l generalizing a with
  | nil => simp
  | cons c t ih => exact le_trans (ih (min a c)) (min_le_left a c)

lemma foldl_min_le_mem (l : List ℚ) : ∀ (a b : ℚ), b ∈ l → l.foldl min a ≤ b := by
  induction l with
  | nil => intro a b hb; cases hb
  | cons c t ih =>
    intro a b hb
    simp only [List.foldl_cons]
    rcases List.mem_cons.1 hb with rfl | hb
    · exact le_trans (foldl_min_le_init _ _) (min_le_right a b)
    · exact ih _ _ hb

lemma le_foldl_min (l : List ℚ) : ∀ (a c : ℚ), c ≤ a → (∀ b ∈ l, c ≤ b) → c ≤ l.foldl min a := by
  induction l with
  | nil => intro a c h _; simpa using h
  | cons d t ih =>
    intro a c h hl
    simp only [List.foldl_cons]
    exact ih _ _ (le_min h (hl d (by simp))) fun b hb => hl b (by simp [hb])

lemma init_le_foldl_max (a : ℚ) (l : List ℚ) : a ≤ l.foldl max a := by
  induction l generalizing a with
  | nil => simp
  | cons c t ih => exact le_trans (le_max_left a c) (ih (max a c))

lemma mem_le_foldl_max (l : List ℚ) : ∀ (a b : ℚ), b ∈ l → b ≤ l.foldl max a := by
  induction l with
  | nil => intro a b hb; cases hb
  | cons c t ih =>
    intro a b hb
    simp only [List.foldl_cons]
    rcases List.mem_cons.1 hb with rfl | hb
    · exact le_trans (le_max_right a b) (init_le_foldl_max _ _)
    · exact ih _ _ hb

lemma foldl_max_le (l : List ℚ) : ∀ (a c : ℚ), a ≤ c → (∀ b ∈ l, b ≤ c) → l.foldl max a ≤ c := by
  induction l with
  | nil => intro a c h _; simpa using h
  | cons d t ih =>
    intro a c h hl
    simp only [List.foldl_cons]
    exact ih _ _ (max_le h (hl d (by simp))) fun b hb => hl b (by simp [hb])

lemma minScore_le (x : SearchResult) (xs : List SearchResult) (r : SearchResult)
    (hr : r ∈ x :: xs) : minScore x xs ≤ r.score := by
  rcases List.mem_cons.1 hr with rfl | hr
  · exact foldl_min_le_init _ _
  · exact foldl_min_le_mem _ _ _ (List.mem_map_of_mem _ hr)

lemma le_maxScore (x : SearchResult) (xs : List SearchResult) (r : SearchResult)
    (hr : r ∈ x :: xs) : r.score ≤ maxScore x xs := by
  rcases List.mem_cons.1 hr with rfl | hr
  · exact init_le_foldl_max _ _
  · exact mem_le_foldl_max _ _ _ (List.mem_map_of_mem _ hr)

lemma minScore_le_maxScore (x : SearchResult) (xs : List SearchResult) :
    minScore x xs ≤ maxScore x xs :=
  le_trans (minScore_le x xs x (by simp)) (le_maxScore x xs x (by simp))

/-- Normalization only rewrites scores: the id sequence is unchanged. -/
lemma normalizeScores_map_id (l : List SearchResult) :
    (normalizeScores l).map SearchResult.id = l.map SearchResult.id := by
  cases l with
  | nil => rfl
  | cons x xs =>
    simp only [normalizeScores]
    split <;> simp [List.map_map, Function.comp]

lemma mem_id_normalizeScores {l : List SearchResult} {d : Nat} :
    d ∈ (normalizeScores l).map SearchResult.id ↔ d ∈ l.map SearchResult.id := by
  rw [normalizeScores_map_id]

lemma dictFind_eq_none {l : List SearchResult} {d : Nat}
    (h : d ∉ l.map SearchResult.id) : dictFind l d = none := by
  apply List.find?_eq_none.2
  intro r hr
  have : r ∈ l := List.mem_reverse.1 hr
  simp only [beq_iff_eq]
  intro hrd
  exact h (hrd ▸ List.mem_map_of_mem _ this)

lemma dictFind_some_of_nodup {l : List SearchResult} {d : Nat} {r : SearchResult}
    (hn : (l.map SearchResult.id).Nodup) (hr : r ∈ l) (hid : r.id = d) :
    dictFind l d = some r := by
  cases h : dictFind l d with
  | none =>
    exfalso
    have := List.find?_eq_none.1 h r (List.mem_reverse.2 hr)
    simp [hid] at this
  | some s =>
    have hs : s ∈ l := List.mem_reverse.1 (List.mem_of_find?_eq_some h)
    have hsd : s.id = d := by simpa using List.find?_some h
    have : s = r := List.inj_on_of_nodup_map hn hs hr (by rw [hsd, hid])
    rw [this]

lemma nScore_eq_of_nodup {l : List SearchResult} {d : Nat} {r : SearchResult}
    (hn : (l.map SearchResult.id).Nodup) (hr : r ∈ l) (hid : r.id = d) :
    nScore l d = r.score := by
  rw [nScore, dictFind_some_of_nodup hn hr hid]
  rfl

lemma nScore_eq_zero {l : List SearchResult} {d : Nat}
    (h : d ∉ l.map SearchResult.id) : nScore l d = 0 := by
  rw [nScore, dictFind_eq_none h]
  rfl

/-! ### C3: min-max normalization -/

/-- C3: the min-max normalization used by fusion returns `[]` on the empty
list (no division by zero is possible: the divisor case is guarded), keeps
every normalized score of a non-empty list within `[0,1]`, and maps a list
whose scores are all equal to all-`1.0`. -/
theorem c3_minmax_normalization :
    normalizeScores [] = [] ∧
    (∀ l : List SearchResult, ∀ r ∈ normalizeScores l, 0 ≤ r.score ∧ r.score ≤ 1) ∧
    (∀ l : List SearchResult, (∀ r ∈ l, ∀ s ∈ l, r.score = s.score) →
      ∀ r ∈ normalizeScores l, r.score = 1) := by
  refine ⟨rfl, ?_, ?_⟩
  · intro l r hr
    match l with
    | [] => cases hr
    | x :: xs =>
      simp only [normalizeScores] at hr
      split at hr
      · rcases List.mem_map.1 hr with ⟨s, _, rfl⟩
        norm_num
      · rename_i hne
        rcases List.mem_map.1 hr with ⟨s, hs, rfl⟩
        have hlt : minScore x xs < maxScore x xs :=
          lt_of_le_of_ne (minScore_le_maxScore x xs) (fun h => hne h.symm)
        have h1 : minScore x xs ≤ s.score := minScore_le x xs s hs
        have h2 : s.score ≤ maxScore x xs := le_maxScore x xs s hs
        constructor
        · exact div_nonneg (by linarith) (by linarith)
        · exact (div_le_one (by linarith)).2 (by linarith)
  · intro l hall r hr
    match l with
    | [] => cases hr
    | x :: xs =>
      have hmn : minScore x xs = x.score := by
        apply le_antisymm (minScore_le x xs x (by simp))
        apply le_foldl_min
        · exact le_refl _
        · intro b hb
          rcases List.mem_map.1 hb with ⟨s, hs, rfl⟩
          exact le_of_eq (hall x (by simp) s (by simp [hs]))
      have hmx : maxScore x xs = x.score := by
        apply le_antisymm
        · apply foldl_max_le
          · exact le_refl _
          · intro b hb
            rcases List.mem_map.1 hb with ⟨s, hs, rfl⟩
            exact le_of_eq (hall s (by simp [hs]) x (by simp))
        · exact le_maxScore x xs x (by simp)
      simp only [normalizeScores, hmn, hmx, if_pos rfl] at hr
      rcases List.mem_map.1 hr with ⟨s, _, rfl⟩
      rfl

/-- Witness for C3 at a concrete non-empty list with hypotheses discharged. -/
theorem c3_minmax_normalization_witness :
    (∀ r ∈ normalizeScores [⟨1, 4⟩, ⟨2, 2⟩, ⟨3, 3⟩], 0 ≤ r.score ∧ r.score ≤ 1) ∧
    (∀ r ∈ normalizeScores [⟨7, 5⟩, ⟨8, 5⟩], r.score = 1) :=
  ⟨fun r hr => c3_minmax_normalization.2.1 _ r hr,
   fun r hr => c3_minmax_normalization.2.2 _ (by decide) r hr⟩

/-! ### C1: fusion keeps every document from either candidate list -/

/-- C1: every document appearing in either sub-index candidate list appears in
the fused list with fused score
`(1-alpha) * normalized_bm25 + alpha * normalized_vector`, a missing side
contributing `0.0` (via `nScore`); in particular a single-method document is
included for every `alpha`. -/
theorem c1_fusion_union (bm25 vec : List SearchResult) (alpha : ℚ)
    (hb : (bm25.map SearchResult.id).Nodup) (hv : (vec.map SearchResult.id).Nodup)
    (d : Nat) (hd : d ∈ bm25.map SearchResult.id ∨ d ∈ vec.map SearchResult.id) :
    ∃ r ∈ fuseScores bm25 vec alpha, r.id = d ∧
      r.score = (1 - alpha) * nScore (normalizeScores bm25) d
              + alpha * nScore (normalizeScores vec) d := by
  have hbn : ((normalizeScores bm25).map SearchResult.id).Nodup := by
    rw [normalizeScores_map_id]; exact hb
  have hvn : ((normalizeScores vec).map SearchResult.id).Nodup := by
    rw [normalizeScores_map_id]; exact hv
  by_cases hdb : d ∈ bm25.map SearchResult.id
  · obtain ⟨b, hbmem, hbid⟩ := List.mem_map.1 (mem_id_normalizeScores.2 hdb)
    refine ⟨⟨b.id, (1 - alpha) * b.score + alpha * nScore (normalizeScores vec) b.id⟩,
      List.mem_append_left _ (List.mem_map.2 ⟨b, hbmem, rfl⟩), hbid, ?_⟩
    rw [hbid, nScore_eq_of_nodup hbn hbmem hbid]
  · rcases hd with hd | hdv
    · exact absurd hd hdb
    obtain ⟨v, hvmem, hvid⟩ := List.mem_map.1 (mem_id_normalizeScores.2 hdv)
    have hfilter : (!((normalizeScores bm25).any fun s => s.id == d)) = true := by
      simp only [Bool.not_eq_true', List.any_eq_false]
      intro s hs
      simp only [beq_iff_eq]
      intro hsd
      exact hdb (mem_id_normalizeScores.1 (hsd ▸ List.mem_map_of_mem _ hs))
    refine ⟨⟨v.id, (1 - alpha) * 0 + alpha * v.score⟩,
      List.mem_append_right _ (List.mem_map.2 ⟨v, List.mem_filter.2 ⟨hvmem, by rw [hvid]; exact hfilter⟩, rfl⟩),
      hvid, ?_⟩
    rw [hvid, nScore_eq_of_nodup hvn hvmem hvid,
        nScore_eq_zero (fun h => hdb (mem_id_normalizeScores.1 h))]

/-- Witness for C1: `alpha = 1/2`, document 3 is vector-only yet appears in
the fused output with the claimed score. -/
theorem c1_fusion_union_witness :
    ∃ r ∈ fuseScores [⟨1, 10⟩, ⟨2, 5⟩] [⟨2, 3⟩, ⟨3, 1⟩] (1/2), r.id = 3 ∧
      r.score = (1 - 1/2) * nScore (normalizeScores [⟨1, 10⟩, ⟨2, 5⟩]) 3
              + (1/2) * nScore (normalizeScores [⟨2, 3⟩, ⟨3, 1⟩]) 3 :=
  c1_fusion_union _ _ _ (by decide) (by decide) 3 (by decide)

/-! ### Stable sorting lemmas for the fused ranking -/

/-- Non-strict descending score order between adjacent results. -/
def ScoreDesc (a b : SearchResult) : Prop := b.score ≤ a.score

/-- Strict descending score order between adjacent results. -/
def ScoreStrictDesc (a b : SearchResult) : Prop := b.score < a.score

instance : DecidableRel ScoreDesc :=
  fun a b => inferInstanceAs (Decidable (b.score ≤ a.score))

instance : DecidableRel ScoreStrictDesc :=
  fun a b => inferInstanceAs (Decidable (b.score < a.score))

lemma insertDesc_eq_cons (x : SearchResult) (l : List SearchResult)
    (h : ∀ z ∈ l, z.score ≤ x.score) : insertDesc x l = x :: l := by
  cases l with
  | nil => rfl
  | cons y ys => rw [insertDesc, if_pos (h y (by simp))]

lemma insertDesc_perm (x : SearchResult) (l : List SearchResult) :
    List.Perm (insertDesc x l) (x :: l) := by
  induction l with
  | nil => exact List.Perm.refl _
  | cons y ys ih =>
    rw [insertDesc]
    split
    · exact List.Perm.refl _
    · exact (ih.cons y).trans (List.Perm.swap x y ys)

lemma sortDesc_perm (l : List SearchResult) : List.Perm (sortDesc l) l := by
  induction l with
  | nil => exact List.Perm.refl _
  | cons x xs ih => exact (insertDesc_perm x (sortDesc xs)).trans (ih.cons x)

lemma insertDesc_pairwise (x : SearchResult) (l : List SearchResult)
    (hl : l.Pairwise ScoreDesc) : (insertDesc x l).Pairwise ScoreDesc := by
  induction l with
  | nil => simp [insertDesc, List.pairwise_singleton]
  | cons y ys ih =>
    rw [List.pairwise_cons] at hl
    rw [insertDesc]
    split
    · rename_i hxy
      refine List.pairwise_cons.2 ⟨?_, List.pairwise_cons.2 hl⟩
      intro z hz
      rcases List.mem_cons.1 hz with rfl | hz
      · exact hxy
      · exact le_trans (hl.1 z hz) hxy
    · rename_i hxy
      refine List.pairwise_cons.2 ⟨?_, ih hl.2⟩
      intro z hz
      have hz' := (insertDesc_perm x ys).mem_iff.1 hz
      rcases List.mem_cons.1 hz' with rfl | hz'
      · exact le_of_not_le hxy
      · exact hl.1 z hz'

lemma sortDesc_pairwise (l : List SearchResult) : (sortDesc l).Pairwise ScoreDesc := by
  induction l with
  | nil => exact List.Pairwise.nil
  | cons x xs ih => exact insertDesc_pairwise x (sortDesc xs) ih

lemma sortDesc_of_pairwise (l : List SearchResult) (hl : l.Pairwise ScoreDesc) :
    sortDesc l = l := by
  induction l with
  | nil => rfl
  | cons x xs ih =>
    rw [List.pairwise_cons] at hl
    rw [sortDesc, ih hl.2]
    exact insertDesc_eq_cons x xs hl.1

lemma filter_insertDesc (p : SearchResult → Bool) (x : SearchResult)
    (l : List SearchResult) (hl : l.Pairwise ScoreDesc) :
    (insertDesc x l).filter p =
      if p x then insertDesc x (l.filter p) else l.filter p := by
  induction l with
  | nil =>
    simp only [insertDesc, List.filter_cons, List.filter_nil]
  | cons y ys ih =>
    rw [List.pairwise_cons] at hl
    rw [insertDesc]
    by_cases hxy : y.score ≤ x.score
    · rw [if_pos hxy]
      by_cases hpx : p x
      · rw [if_pos hpx, List.filter_cons, if_pos hpx, List.filter_cons]
        by_cases hpy : p y
        · rw [if_pos hpy, insertDesc, if_pos hxy]
        · rw [if_neg hpy, insertDesc_eq_cons]
          intro z hz
          have hz' := List.mem_filter.1 hz
          exact le_trans (hl.1 z hz'.1) hxy
      · rw [if_neg hpx, List.filter_cons, if_neg hpx]
    · rw [if_neg hxy]
      rw [List.filter_cons]
      by_cases hpy : p y
      · rw [if_pos hpy, ih hl.2, List.filter_cons, if_pos hpy]
        by_cases hpx : p x
        · rw [if_pos hpx, if_pos hpx, insertDesc, if_neg hxy]
        · rw [if_neg hpx, if_neg hpx]
      · rw [if_neg hpy, ih hl.2, List.filter_cons, if_neg hpy]

lemma filter_sortDesc (p : SearchResult → Bool) (l : List SearchResult) :
    (sortDesc l).filter p = sortDesc (l.filter p) := by
  induction l with
  | nil => rfl
  | cons x xs ih =>
    rw [sortDesc, filter_insertDesc p x (sortDesc xs) (sortDesc_pairwise xs), ih,
      List.filter_cons]
    by_cases hpx : p x
    · rw [if_pos hpx, if_pos hpx, sortDesc]
    · rw [if_neg hpx, if_neg hpx]

lemma eq_of_perm_of_strictDesc (l : List SearchResult) :
    ∀ m, List.Perm l m → l.Pairwise ScoreStrictDesc → m.Pairwise ScoreStrictDesc → l = m := by
  induction l with
  | nil =>
    intro m hperm _ _
    exact hperm.nil_eq
  | cons x xs ih =>
    intro m hperm hl hm
    cases m with
    | nil => exact absurd hperm.eq_nil (by simp)
    | cons y ys =>
      rw [List.pairwise_cons] at hl hm
      have hxy : x = y := by
        have hx : x ∈ y :: ys := hperm.mem_iff.1 (by simp)
        rcases List.mem_cons.1 hx with rfl | hx
        · rfl
        · exfalso
          have hy : y ∈ x :: xs := hperm.mem_iff.2 (by simp)
          rcases List.mem_cons.1 hy with heq | hy
          · have := hm.1 x hx
            rw [heq] at this
            exact absurd this (lt_irrefl _)
          · exact absurd (lt_trans (hm.1 x hx) (hl.1 y hy)) (lt_irrefl _)
      subst hxy
      rw [ih ys hperm.cons_inv hl.2 hm.2]

lemma searchResult_eq {a b : SearchResult} (h1 : a.id = b.id) (h2 : a.score = b.score) :
    a = b := by
  cases a; cases b; simp_all

/-- Min-max normalization is monotone: a non-strictly descending score list
stays non-strictly descending. -/
lemma normalizeScores_pairwise_le (l : List SearchResult) (hl : l.Pairwise ScoreDesc) :
    (normalizeScores l).Pairwise ScoreDesc := by
  cases l with
  | nil => exact List.Pairwise.nil
  | cons x xs =>
    rw [normalizeScores]
    split
    · refine List.pairwise_map.2 (hl.imp ?_)
      intro a b _
      exact le_refl (1 : ℚ)
    · rename_i hne
      have hlt : minScore x xs < maxScore x xs :=
        lt_of_le_of_ne (minScore_le_maxScore x xs) (fun h => hne h.symm)
      refine List.pairwise_map.2 (hl.imp ?_)
      intro a b hab
      show (b.score - minScore x xs) / (maxScore x xs - minScore x xs)
          ≤ (a.score - minScore x xs) / (maxScore x xs - minScore x xs)
      have hpos : (0 : ℚ) < maxScore x xs - minScore x xs := by linarith
      gcongr
      exact hab

/-- Min-max normalization is strictly monotone on strictly descending lists
(a strictly descending list with at least two entries cannot hit the
all-equal branch). -/
lemma normalizeScores_pairwise_lt (l : List SearchResult) (hl : l.Pairwise ScoreStrictDesc) :
    (normalizeScores l).Pairwise ScoreStrictDesc := by
  cases l with
  | nil => exact List.Pairwise.nil
  | cons x xs =>
    cases xs with
    | nil =>
      rw [normalizeScores]
      split <;> simp [List.pairwise_singleton]
    | cons y ys =>
      have hyx : y.score < x.score := (List.pairwise_cons.1 hl).1 y (by simp)
      have hne : maxScore x (y :: ys) ≠ minScore x (y :: ys) := by
        intro h
        have h1 : minScore x (y :: ys) ≤ y.score := minScore_le _ _ y (by simp)
        have h2 : x.score ≤ maxScore x (y :: ys) := le_maxScore _ _ x (by simp)
        rw [h] at h2
        linarith
      rw [normalizeScores, if_neg hne]
      have hlt : minScore x (y :: ys) < maxScore x (y :: ys) :=
        lt_of_le_of_ne (minScore_le_maxScore _ _) (fun h => hne h.symm)
      refine List.pairwise_map.2 (hl.imp ?_)
      intro a b hab
      show (b.score - minScore x (y :: ys)) / (maxScore x (y :: ys) - minScore x (y :: ys))
          < (a.score - minScore x (y :: ys)) / (maxScore x (y :: ys) - minScore x (y :: ys))
      have hpos : (0 : ℚ) < maxScore x (y :: ys) - minScore x (y :: ys) := by linarith
      gcongr
      exact hab

/-! ### C2: `alpha = 0` reproduces BM25 order, `alpha = 1` vector order -/

/-- C2: with `alpha = 0` the fused ranking, restricted to the BM25 candidate
documents, lists them in exactly the BM25 order (BM25 results arrive sorted
non-increasing by raw score); with `alpha = 1` it lists the vector candidate
documents in exactly the vector order.  The vector hypothesis is strict
because on exact score ties the code's stable sort breaks ties by insertion
order, a nondeterminism the spec itself exempts from the guarantee. -/
theorem c2_alpha_extremes (bm25 vec : List SearchResult)
    (hbSorted : bm25.Pairwise ScoreDesc)
    (hvSorted : vec.Pairwise ScoreStrictDesc)
    (hb : (bm25.map SearchResult.id).Nodup)
    (hv : (vec.map SearchResult.id).Nodup) :
    ((hybridFuseRank bm25 vec 0).filter
        (fun r => decide (r.id ∈ bm25.map SearchResult.id))).map SearchResult.id
      = bm25.map SearchResult.id ∧
    ((hybridFuseRank bm25 vec 1).filter
        (fun r => decide (r.id ∈ vec.map SearchResult.id))).map SearchResult.id
      = vec.map SearchResult.id := by
  have hbn : ((normalizeScores bm25).map SearchResult.id).Nodup := by
    rw [normalizeScores_map_id]; exact hb
  have hvn : ((normalizeScores vec).map SearchResult.id).Nodup := by
    rw [normalizeScores_map_id]; exact hv
  constructor
  · -- alpha = 0
    rw [hybridFuseRank, filter_sortDesc]
    have hkey : (fuseScores bm25 vec 0).filter
        (fun r => decide (r.id ∈ bm25.map SearchResult.id)) =
        (normalizeScores bm25).map (fun r =>
          { id := r.id,
            score := (1 - 0) * r.score + 0 * nScore (normalizeScores vec) r.id
            : SearchResult }) := by
      rw [fuseScores, List.filter_append]
      have h1 : ((normalizeScores bm25).map (fun r =>
          { id := r.id,
            score := (1 - 0) * r.score + 0 * nScore (normalizeScores vec) r.id
            : SearchResult })).filter
          (fun r => decide (r.id ∈ bm25.map SearchResult.id)) = _ :=
        List.filter_eq_self.2 (by
          intro a ha
          rcases List.mem_map.1 ha with ⟨s, hs, rfl⟩
          simp only [decide_eq_true_eq]
          exact mem_id_normalizeScores.1 (List.mem_map_of_mem _ hs))
      rw [h1]
      have h2 : (((normalizeScores vec).filter fun r =>
          !((normalizeScores bm25).any fun s => s.id == r.id)).map (fun r =>
          { id := r.id, score := (1 - 0) * 0 + 0 * r.score : SearchResult })).filter
          (fun r => decide (r.id ∈ bm25.map SearchResult.id)) = [] := by
        apply List.filter_eq_nil_iff.2
        intro a ha
        rcases List.mem_map.1 ha with ⟨s, hs, rfl⟩
        have hcond := (List.mem_filter.1 hs).2
        simp only [Bool.not_eq_true', List.any_eq_false, beq_iff_eq] at hcond
        simp only [decide_eq_true_eq]
        intro hmem
        rcases List.mem_map.1 (mem_id_normalizeScores.2 hmem) with ⟨t, ht, htid⟩
        exact hcond t ht htid
      rw [h2, List.append_nil]
    rw [hkey]
    have hsorted : ((normalizeScores bm25).map (fun r =>
        { id := r.id,
          score := (1 - 0) * r.score + 0 * nScore (normalizeScores vec) r.id
          : SearchResult })).Pairwise ScoreDesc := by
      refine List.pairwise_map.2 ((normalizeScores_pairwise_le bm25 hbSorted).imp ?_)
      intro a b hab
      show (1 - 0) * b.score + 0 * nScore (normalizeScores vec) b.id
          ≤ (1 - 0) * a.score + 0 * nScore (normalizeScores vec) a.id
      have : b.score ≤ a.score := hab
      linarith
    rw [sortDesc_of_pairwise _ hsorted, List.map_map]
    have : (SearchResult.id ∘ fun r =>
        ({ id := r.id,
           score := (1 - 0) * r.score + 0 * nScore (normalizeScores vec) r.id
           : SearchResult })) = SearchResult.id := rfl
    rw [this, normalizeScores_map_id]
  · -- alpha = 1
    rw [hybridFuseRank, filter_sortDesc]
    have hvnNodup : (normalizeScores vec).Nodup := List.Nodup.of_map _ hvn
    have hvnStrict : (normalizeScores vec).Pairwise ScoreStrictDesc :=
      normalizeScores_pairwise_lt vec hvSorted
    -- membership characterization: the filtered fused list and the
    -- normalized vector list have the same (nodup) elements
    have hperm : List.Perm ((fuseScores bm25 vec 1).filter
        (fun r => decide (r.id ∈ vec.map SearchResult.id))) (normalizeScores vec) := by
      have hFnodup : ((fuseScores bm25 vec 1).filter
          (fun r => decide (r.id ∈ vec.map SearchResult.id))).Nodup := by
        apply List.Nodup.of_map SearchResult.id
        rw [fuseScores, List.filter_append]
        rw [List.map_append]
        apply List.nodup_append.2
        refine ⟨?_, ?_, ?_⟩
        · -- ids of the filtered bm25 part: a sublist of the bm25 ids
          apply List.Pairwise.sublist (List.Sublist.map _ (List.filter_sublist _))
          have : ((normalizeScores bm25).map (fun r =>
              { id := r.id,
                score := (1 - 1) * r.score + 1 * nScore (normalizeScores vec) r.id
                : SearchResult })).map SearchResult.id
              = (normalizeScores bm25).map SearchResult.id := by
            rw [List.map_map]; rfl
          rw [this]
          exact hbn
        · apply List.Pairwise.sublist (List.Sublist.map _ (List.filter_sublist _))
          have : (((normalizeScores vec).filter fun r =>
              !((normalizeScores bm25).any fun s => s.id == r.id)).map (fun r =>
              { id := r.id, score := (1 - 1) * 0 + 1 * r.score : SearchResult })).map
                SearchResult.id
              = ((normalizeScores vec).filter fun r =>
                  !((normalizeScores bm25).any fun s => s.id == r.id)).map
                  SearchResult.id := by
            rw [List.map_map]; rfl
          rw [this]
          exact List.Pairwise.sublist (List.Sublist.map _ (List.filter_sublist _)) hvn
        · -- disjoint: the bm25 part has ids in bm25, the vector-only part not
          intro i hi1 hi2
          rcases List.mem_map.1 hi1 with ⟨a, ha, rfl⟩
          rcases List.mem_map.1 hi2 with ⟨b, hbmem, hbid⟩
          have ha' := (List.mem_filter.1 ha).1
          rcases List.mem_map.1 ha' with ⟨s, hsmem, rfl⟩
          rcases List.mem_map.1 ((List.mem_filter.1 hbmem).1) with ⟨t, htmem, rfl⟩
          have hcond := (List.mem_filter.1 htmem).2
          simp only [Bool.not_eq_true', List.any_eq_false, beq_iff_eq] at hcond
          exact hcond s hsmem (by simpa using hbid.symm)
      refine (List.perm_ext_iff_of_nodup hFnodup hvnNodup).2 ?_
      intro a
      constructor
      · intro ha
        have hmem := (List.mem_filter.1 ha).1
        rw [fuseScores] at hmem
        rcases List.mem_append.1 hmem with hA | hB
        · rcases List.mem_map.1 hA with ⟨b, hbmem, rfl⟩
          have hq := (List.mem_filter.1 ha).2
          simp only [decide_eq_true_eq] at hq
          rcases List.mem_map.1 (mem_id_normalizeScores.2 hq) with ⟨v, hvmem, hvid⟩
          have hns : nScore (normalizeScores vec) b.id = v.score :=
            nScore_eq_of_nodup hvn hvmem hvid
          have : (⟨b.id,
              (1 - 1) * b.score + 1 * nScore (normalizeScores vec) b.id⟩
              : SearchResult) = v := by
            apply searchResult_eq
            · exact hvid.symm
            · rw [hns]; ring
          rw [this]
          exact hvmem
        · rcases List.mem_map.1 hB with ⟨v, hvmem, rfl⟩
          have : (⟨v.id, (1 - 1) * 0 + 1 * v.score⟩ : SearchResult) = v := by
            apply searchResult_eq
            · rfl
            · ring
          rw [this]
          exact (List.mem_filter.1 hvmem).1
      · intro ha
        apply List.mem_filter.2
        refine ⟨?_, ?_⟩
        · rw [fuseScores]
          by_cases hcase : a.id ∈ (normalizeScores bm25).map SearchResult.id
          · rcases List.mem_map.1 hcase with ⟨b, hbmem, hbid⟩
            apply List.mem_append_left
            apply List.mem_map.2
            refine ⟨b, hbmem, ?_⟩
            apply searchResult_eq
            · exact hbid
            · have hns : nScore (normalizeScores vec) b.id = a.score :=
                nScore_eq_of_nodup hvn ha hbid.symm
              rw [hns]; ring
          · apply List.mem_append_right
            apply List.mem_map.2
            refine ⟨a, ?_, ?_⟩
            · apply List.mem_filter.2
              refine ⟨ha, ?_⟩
              simp only [Bool.not_eq_true', List.any_eq_false, beq_iff_eq]
              intro s hs hsid
              exact hcase (hsid ▸ List.mem_map_of_mem _ hs)
            · apply searchResult_eq
              · rfl
              · show (1 - 1) * 0 + 1 * a.score = a.score; ring
        · simp only [decide_eq_true_eq]
          exact mem_id_normalizeScores.1 (List.mem_map_of_mem _ ha)
    have hTperm : List.Perm (sortDesc ((fuseScores bm25 vec 1).filter
        (fun r => decide (r.id ∈ vec.map SearchResult.id)))) (normalizeScores vec) :=
      (sortDesc_perm _).trans hperm
    have hscoresNodup : (((fuseScores bm25 vec 1).filter
        (fun r => decide (r.id ∈ vec.map SearchResult.id)) |> sortDesc).map
          SearchResult.score).Nodup := by
      apply (List.Perm.nodup_iff (hTperm.map SearchResult.score)).2
      apply List.pairwise_map.2
      exact hvnStrict.imp fun hab => ne_of_gt hab
    have hTstrict : (sortDesc ((fuseScores bm25 vec 1).filter
        (fun r => decide (r.id ∈ vec.map SearchResult.id)))).Pairwise ScoreStrictDesc := by
      have h1 := sortDesc_pairwise ((fuseScores bm25 vec 1).filter
        (fun r => decide (r.id ∈ vec.map SearchResult.id)))
      have h2 : (sortDesc ((fuseScores bm25 vec 1).filter
          (fun r => decide (r.id ∈ vec.map SearchResult.id)))).Pairwise
          (fun a b => a.score ≠ b.score) := List.pairwise_map.1 hscoresNodup
      exact (h1.and h2).imp fun h => lt_of_le_of_ne h.1 (fun heq => h.2 heq.symm)
    have hTeq : sortDesc ((fuseScores bm25 vec 1).filter
        (fun r => decide (r.id ∈ vec.map SearchResult.id))) = normalizeScores vec :=
      eq_of_perm_of_strictDesc _ _ hTperm hTstrict hvnStrict
    rw [hTeq, normalizeScores_map_id]

/-- Witness for C2 at concrete sorted candidate lists. -/
theorem c2_alpha_extremes_witness :
    ((hybridFuseRank [⟨1, 10⟩, ⟨2, 4⟩] [⟨2, 8⟩, ⟨5, 6⟩, ⟨9, 1⟩] 0).filter
        (fun r => decide (r.id ∈ [⟨1, 10⟩, ⟨2, 4⟩].map SearchResult.id))).map SearchResult.id
      = [⟨1, 10⟩, ⟨2, 4⟩].map SearchResult.id ∧
    ((hybridFuseRank [⟨1, 10⟩, ⟨2, 4⟩] [⟨2, 8⟩, ⟨5, 6⟩, ⟨9, 1⟩] 1).filter
        (fun r => decide (r.id ∈ [⟨2, 8⟩, ⟨5, 6⟩, ⟨9, 1⟩].map SearchResult.id))).map
          SearchResult.id
      = [⟨2, 8⟩, ⟨5, 6⟩, ⟨9, 1⟩].map SearchResult.id :=
  c2_alpha_extremes _ _ (by decide) (by decide) (by decide) (by decide)

/-! ### Python string primitives

Python strings are modelled as lists of characters (`Str`).  `str.strip`,
`str.split`, `str.lower`, `str.isalnum` are modelled on their ASCII fragment
(the repository's separators, keywords and classification markers are all
ASCII). -/

/-- A Python string, as a list of characters. -/
abbrev Str := List Char

/-- ASCII fragment of Python `str.isspace` / the whitespace set used by
`str.strip()` and `str.split()`. -/
def pyIsSpace (c : Char) : Bool :=
  c = ' ' || c = '\t' || c = '\n' || c = '\r' || c = Char.ofNat 11 || c = Char.ofNat 12

/-- Python `s.strip()`: drop leading and trailing whitespace. -/
def pyStrip (s : Str) : Str :=
  ((s.dropWhile pyIsSpace).reverse.dropWhile pyIsSpace).reverse

/-- Fuelled splitting of `text` on a non-empty literal separator, keeping
empty pieces (Python `text.split(sep)` semantics).  The fuel only needs to
dominate the text length; `splitOnL` supplies it. -/
def splitOnF (sep : Str) : Nat → Str → List Str
  | 0, t => [t]
  | _ + 1, [] => [[]]
  | f + 1, c :: cs =>
    if sep.isPrefixOf (c :: cs) then
      [] :: splitOnF sep f (cs.drop (sep.length - 1))
    else
      (splitOnF sep f cs).modifyHead (c :: ·)

/-- Python `text.split(sep)` for a literal separator (empty separator returns
the text whole, mirroring the guarded call sites). -/
def splitOnL (sep text : Str) : List Str :=
  if sep.isEmpty then [text] else splitOnF sep text.length text

/-- Python `sub in s` for a non-empty literal `sub` (and `True` for empty). -/
def containsSub (s pat : Str) : Bool :=
  pat.isEmpty || (splitOnL pat s).length > 1

/-- Python `s.split()` (split on whitespace runs, dropping empty words). -/
def wsplit (s : Str) : List Str :=
  match s.foldr
      (fun c acc =>
        if pyIsSpace c then
          (if acc.2.isEmpty then acc.1 else acc.2 :: acc.1, ([] : Str))
        else (acc.1, c :: acc.2))
      (([] : List Str), ([] : Str)) with
  | (rs, []) => rs
  | (rs, w) => w :: rs

/-- ASCII fragment of Python `str.isalnum` for one character. -/
def pyIsAlnumChar (c : Char) : Bool := c.isAlphanum

/-- ASCII fragment of Python `word.isalnum()`. -/
def pyIsAlnum (w : Str) : Bool := !w.isEmpty && w.all pyIsAlnumChar

/-- ASCII fragment of Python `word.lower()`. -/
def pyLower (w : Str) : Str := w.map Char.toLower

/-- The tokenization used identically for the BM25 corpus and queries
(`hybrid_retriever.py` lines 52-53 and 91-92): split on whitespace, keep only
alphanumeric words of length at least 2, lowercase them. -/
def pyTokenize (s : Str) : List Str :=
  ((wsplit s).filter fun w => decide (2 ≤ w.length) && pyIsAlnum w).map pyLower

/-! ### Chunker (`src/core/rag/chunking.py`) -/

/-- A code chunk (`CodeChunk` dataclass).  The `metadata` dict and the
md5-derived `content_hash` field are opaque to every claim (`md5` is an
external primitive) and omitted from the model. -/
structure CodeChunk where
  content : Str
  filePath : Str
  startLine : Nat
  endLine : Nat
  chunkType : Str
deriving DecidableEq, Repr

/-- Python `content.split('\n')`. -/
def splitLines (s : Str) : List Str := splitOnL ['\n'] s

/-- Classification chain applied to the first non-blank (stripped) line
(`CodeChunker._classify_chunk`, lines 149-168).  The source checks the
four-space-indented `def `/`async def ` variants even though the line has
already been stripped; the dead tests are kept for faithfulness. -/
def classifyLine (l : Str) : Str :=
  if "class ".data.isPrefixOf l then "class".data
  else if "def ".data.isPrefixOf l || "    def ".data.isPrefixOf l then "function".data
  else if "async def ".data.isPrefixOf l || "    async def ".data.isPrefixOf l then
    "async_function".data
  else if containsSub l "__init__(".data && containsSub l "def ".data then "constructor".data
  else if containsSub l "if __name__".data || containsSub l "import ".data
      || containsSub l "from ".data then "module_setup".data
  else "code_block".data

/-- `CodeChunker._classify_chunk`: the loop strips each line and returns the
classification of the first non-blank one (every branch of the chain returns),
or `'unknown'` when all lines are blank. -/
def classifyChunk (content : Str) : Str :=
  match ((splitLines content).map pyStrip).find? (fun l => !l.isEmpty) with
  | some l => classifyLine l
  | none => "unknown".data

/-- The per-piece loop of `CodeChunker.chunk_code` (lines 103-138): strip each
piece, skip blank ones, classify, and maintain the running line counter
(`end_line = current_line + len(content.split('\n')) - 1`,
`current_line = end_line + 1`). -/
def chunkPieces (fp : Str) (cur : Nat) : List Str → List CodeChunk
  | [] => []
  | p :: ps =>
    if (pyStrip p).isEmpty then chunkPieces fp cur ps
    else
      (⟨pyStrip p, fp, cur, cur + ((splitLines (pyStrip p)).length - 1),
        classifyChunk (pyStrip p)⟩ : CodeChunk)
        :: chunkPieces fp (cur + ((splitLines (pyStrip p)).length - 1) + 1) ps

/-! ### LangChain `RecursiveCharacterTextSplitter` model

`CodeChunker.chunk_code` delegates the actual splitting to LangChain's
`RecursiveCharacterTextSplitter` (constructed with
`chunk_size`, `chunk_overlap`, `separators=PYTHON_SEPARATORS`, and the
defaults `keep_separator=True`, `is_separator_regex=False`,
`strip_whitespace=True`).  The splitter is pure string processing and is
modelled here faithfully: separator selection, literal splitting with kept
separators, and the merge loop with its overlap-pop inner loop.  Totals are
integers (`ℤ`), as Python ints are exact. -/

/-- Separator selection loop of `_split_text`: initial candidate is the last
separator; the first empty separator wins immediately (with no remaining
separators); otherwise the first separator occurring in `text` wins, keeping
the rest of the list for recursion. -/
def chooseSepAux (fallback : Str) : List Str → Str → Str × List Str
  | [], _ => (fallback, [])
  | s :: rest, text =>
    if s.isEmpty then ([], [])
    else if containsSub text s then (s, rest)
    else chooseSepAux fallback rest text

/-- `separator = separators[-1]` then the selection loop (the source indexes
`separators[-1]`, so callers always pass a non-empty list). -/
def chooseSep (seps : List Str) (text : Str) : Str × List Str :=
  chooseSepAux (seps.getLastD []) seps text

/-- `_split_text_with_regex(text, re.escape(sep), keep_separator=True)` for a
literal separator: split on the separator and re-attach it to the front of
each following piece, dropping empty pieces; the empty separator splits into
single characters. -/
def splitWithSep (sep text : Str) : List Str :=
  if sep.isEmpty then
    (text.map (fun c => ([c] : Str))).filter (fun s => !s.isEmpty)
  else
    match splitOnL sep text with
    | [] => []
    | p :: ps => (p :: ps.map (fun q => sep ++ q)).filter (fun s => !s.isEmpty)

/-- `TextSplitter._join_docs` with the default `strip_whitespace=True`:
join, strip, and drop the doc entirely if it stripped to empty. -/
def joinDocs (docs : List Str) (sep : Str) : Option Str :=
  if (pyStrip (List.intercalate sep docs)).isEmpty then none
  else some (pyStrip (List.intercalate sep docs))

/-- The overlap-pop `while` loop inside `TextSplitter._merge_splits`.  The
source would raise `IndexError` on an empty `current_doc`; that state is
unreachable because `total = 0` falsifies both disjuncts, and the model simply
exits there. -/
def popLoop (cs ov sl dLen : ℤ) : List Str → ℤ → List Str × ℤ
  | [], total => ([], total)
  | h :: t, total =>
    if total > ov ∨ (total + dLen + sl > cs ∧ total > 0) then
      popLoop cs ov sl dLen t (total - ((h.length : ℤ) + if t.isEmpty then 0 else sl))
    else (h :: t, total)

/-- `TextSplitter._merge_splits`: accumulate splits into docs of length at
most `chunk_size`, carrying `chunk_overlap` characters of trailing context
forward via the pop loop. -/
def mergeSplits (cs ov : ℤ) (splits : List Str) (sep : Str) : List Str :=
  let sl : ℤ := sep.length
  let fin := splits.foldl
    (fun (st : List Str × List Str × ℤ) d =>
      let docs := st.1
      let cur := st.2.1
      let total := st.2.2
      let dLen : ℤ := d.length
      let st2 :=
        if total + dLen + (if cur.isEmpty then 0 else sl) > cs then
          if cur.isEmpty then (docs, cur, total)
          else
            let docs2 :=
              match joinDocs cur sep with
              | some doc => docs ++ [doc]
              | none => docs
            let pt := popLoop cs ov sl dLen cur total
            (docs2, pt.1, pt.2)
        else (docs, cur, total)
      let cur2 := st2.2.1 ++ [d]
      (st2.1, cur2, st2.2.2 + dLen + (if cur2.length > 1 then sl else 0)))
    ([], [], 0)
  match joinDocs fin.2.1 sep with
  | some doc => fin.1 ++ [doc]
  | none => fin.1

/-- `RecursiveCharacterTextSplitter._split_text`, with recursion fuel: every
recursive call consumes a strict suffix of the separator list, so fuel
`seps.length + 1` (supplied by `splitTextModel`) makes the `0` arm
unreachable.  With `keep_separator=True` the merge separator is `""`. -/
def splitTextF (cs ov : ℤ) : Nat → List Str → Str → List Str
  | 0, _, text => [text]
  | fuel + 1, seps, text =>
    let sn := chooseSep seps text
    let fin := (splitWithSep sn.1 text).foldl
      (fun (st : List Str × List Str) s =>
        if (s.length : ℤ) < cs then (st.1, st.2 ++ [s])
        else
          let fl := if st.2.isEmpty then st.1 else st.1 ++ mergeSplits cs ov st.2 []
          let fl2 :=
            if sn.2.isEmpty then fl ++ [s]
            else fl ++ splitTextF cs ov fuel sn.2 s
          (fl2, []))
      ([], [])
    if fin.2.isEmpty then fin.1 else fin.1 ++ mergeSplits cs ov fin.2 []

/-- `split_text` / `create_documents` on one text: `_split_text(text, seps)`. -/
def splitTextModel (cs ov : ℤ) (seps : List Str) (text : Str) : List Str :=
  splitTextF cs ov (seps.length + 1) seps text

/-- `CodeChunker.PYTHON_SEPARATORS` (lines 30-51). -/
def pySeparators : List Str :=
  ["\nclass ".data, "\n    class ".data, "\n    def ".data, "\ndef ".data,
   "\n        def ".data, "\n    ".data, "\n".data, " ".data, "".data]

/-- `CodeChunker.chunk_code`: split via the (modelled) LangChain splitter,
then run the per-piece loop. -/
def chunkCodeModel (cs ov : ℤ) (seps : List Str) (code fp : Str) : List CodeChunk :=
  chunkPieces fp 1 (splitTextModel cs ov seps code)

/-! ### C6: line-number invariants of `chunk_code` -/

lemma splitOnF_newline_length (f : Nat) :
    ∀ t : Str, t.length ≤ f → (splitOnF ['\n'] f t).length = t.count '\n' + 1 := by
  induction f with
  | zero =>
    intro t ht
    have ht0 : t = [] := List.eq_nil_of_length_eq_zero (Nat.le_zero.1 ht)
    subst ht0
    rfl
  | succ f ih =>
    intro t ht
    match t with
    | [] => rfl
    | c :: cs =>
      have hlen : cs.length ≤ f := Nat.succ_le_succ_iff.1 (by simpa using ht)
      rw [splitOnF]
      split
      · rename_i hpre
        have hc : c = '\n' := by
          have h1 : ('\n' == c) = true := by simpa [List.isPrefixOf] using hpre
          exact (beq_iff_eq.1 h1).symm
        subst hc
        simp [ih _ hlen, List.count_cons_self]
      · rename_i hpre
        have hc : ¬(c = '\n') := by
          intro h; subst h; exact hpre (by simp [List.isPrefixOf])
        simp [List.length_modifyHead, ih _ hlen,
          List.count_cons_of_ne (fun h => hc h.symm)]

lemma splitLines_length (s : Str) : (splitLines s).length = s.count '\n' + 1 :=
  splitOnF_newline_length s.length s (le_refl _)

/-- The line-number bookkeeping of the `chunk_code` loop, generalized over the
running counter. -/
lemma chunkPieces_spec (fp : Str) (pieces : List Str) :
    ∀ cur : Nat,
      (∀ c, (chunkPieces fp cur pieces).head? = some c → c.startLine = cur) ∧
      (∀ c ∈ chunkPieces fp cur pieces,
        cur ≤ c.startLine ∧ c.startLine ≤ c.endLine ∧
        c.endLine = c.startLine + c.content.count '\n') ∧
      (chunkPieces fp cur pieces).Chain' (fun a b => b.startLine = a.endLine + 1) ∧
      (chunkPieces fp cur pieces).Chain' (fun a b => a.startLine < b.startLine) := by
  induction pieces with
  | nil => intro cur; simp [chunkPieces]
  | cons p ps ih =>
    intro cur
    by_cases hp : (pyStrip p).isEmpty
    · simpa [chunkPieces, hp] using ih cur
    · have hnl : (splitLines (pyStrip p)).length - 1 = (pyStrip p).count '\n' := by
        rw [splitLines_length]
        omega
      have hrec := ih (cur + ((splitLines (pyStrip p)).length - 1) + 1)
      rw [chunkPieces, if_neg (by simp [hp])]
      refine ⟨?_, ?_, ?_, ?_⟩
      · intro c hc
        simp only [List.head?_cons, Option.some.injEq] at hc
        rw [← hc]
      · intro c hc
        rcases List.mem_cons.1 hc with rfl | hc
        · exact ⟨le_refl _, Nat.le_add_right _ _, by rw [hnl]⟩
        · have h := hrec.2.1 c hc
          exact ⟨le_trans (by omega) h.1, h.2.1, h.2.2⟩
      · apply List.chain'_cons'.2
        refine ⟨?_, hrec.2.2.1⟩
        intro b hb
        have := hrec.1 b hb
        rw [this]
      · apply List.chain'_cons'.2
        refine ⟨?_, hrec.2.2.2⟩
        intro b hb
        have := hrec.1 b hb
        rw [this]
        exact Nat.lt_succ_of_le (Nat.le_add_right _ _)

/-- The C6 invariant bundle for a chunk list produced from one file. -/
def chunkInvariants (chunks : List CodeChunk) : Prop :=
  (∀ c ∈ chunks, c.startLine ≤ c.endLine) ∧
  chunks.Chain' (fun a b => a.startLine < b.startLine) ∧
  (∀ c, chunks.head? = some c → c.startLine = 1) ∧
  chunks.Chain' (fun a b => b.startLine = a.endLine + 1) ∧
  (∀ c ∈ chunks, c.endLine = c.startLine + c.content.count '\n')

/-- C6: for every input text (indeed for every splitter configuration), the
chunks returned by `chunk_code` satisfy `end_line >= start_line`, strictly
increasing `start_line`, first `start_line = 1`, each subsequent
`start_line = previous end_line + 1`, and
`end_line = start_line + (newlines in stripped content)`. -/
theorem c6_chunk_line_invariants (cs ov : ℤ) (seps : List Str) (code fp : Str) :
    chunkInvariants (chunkCodeModel cs ov seps code fp) := by
  have h := chunkPieces_spec fp (splitTextModel cs ov seps code) 1
  exact ⟨fun c hc => (h.2.1 c hc).2.1, h.2.2.2, h.1, h.2.2.1,
    fun c hc => (h.2.1 c hc).2.2⟩

/-! ### C7: the two-function chunking scenario -/

/-- C7 (counterexample): on the spec's exact scenario input with
`target_chunk_size = 1000` and the Python separator configuration,
`chunk_code` does **not** return 2 chunks: the 49-character text fits into a
single merged chunk, so exactly one chunk is returned. -/
theorem c7_counterexample :
    (chunkCodeModel 1000 100 pySeparators
      "def foo():\n    return 1\n\ndef bar():\n    return 2".data "f.py".data).length ≠ 2 := by
  decide

/-- C7 (amended): the scenario input with `target_chunk_size = 1000` and the
Python separators yields exactly one chunk, classified `'function'`, covering
lines 1-5 (the merge step of the splitter re-joins both sub-1000-character
pieces, and the running line counter spans the whole text). -/
theorem c7_single_chunk :
    chunkCodeModel 1000 100 pySeparators
      "def foo():\n    return 1\n\ndef bar():\n    return 2".data "f.py".data =
    [⟨"def foo():\n    return 1\n\ndef bar():\n    return 2".data, "f.py".data, 1, 5,
      "function".data⟩] := by
  decide

/-! ### C8: constructor classification -/

/-- C8 (counterexample): the chunk `"def __init__(self):"` has a first
non-blank line containing both `__init__(` and `def `, yet `_classify_chunk`
returns `'function'`, not `'constructor'`: the `startswith('def ')` branch
fires first. -/
theorem c8_counterexample :
    containsSub "def __init__(self):".data "__init__(".data = true ∧
    containsSub "def __init__(self):".data "def ".data = true ∧
    ((splitLines "def __init__(self):".data).map pyStrip).find? (fun l => !l.isEmpty) =
      some "def __init__(self):".data ∧
    classifyChunk "def __init__(self):".data ≠ "constructor".data := by
  decide

/-- C8 (amended): the classification returns `'constructor'` for a chunk whose
first non-blank line contains both `__init__(` and `def `, **provided** that
line does not start with any of the earlier-tested prefixes (`class `,
`def `, `    def `, `async def `, `    async def `), which take priority in
the source's `elif` chain. -/
theorem c8_constructor_classification (content l : Str)
    (hfind : ((splitLines content).map pyStrip).find? (fun x => !x.isEmpty) = some l)
    (h1 : containsSub l "__init__(".data = true)
    (h2 : containsSub l "def ".data = true)
    (h3 : "class ".data.isPrefixOf l = false)
    (h4 : "def ".data.isPrefixOf l = false)
    (h5 : "    def ".data.isPrefixOf l = false)
    (h6 : "async def ".data.isPrefixOf l = false)
    (h7 : "    async def ".data.isPrefixOf l = false) :
    classifyChunk content = "constructor".data := by
  rw [classifyChunk, hfind]
  simp [classifyLine, h1, h2, h3, h4, h5, h6, h7]

/-- Witness for C8 (amended) at a concrete chunk. -/
theorem c8_constructor_classification_witness :
    classifyChunk "ctor = def __init__(self)".data = "constructor".data :=
  c8_constructor_classification "ctor = def __init__(self)".data
    "ctor = def __init__(self)".data (by decide) (by decide) (by decide) (by decide)
    (by decide) (by decide) (by decide) (by decide)

/-! ### Vector store (`src/core/rag/vector_store.py`)

The Qdrant backend is modelled as an id-keyed point store with upsert
semantics; the sentence-transformer is modelled by its outcome: `some` of the
encoded vectors, or `none` for the raised-exception path of
`generate_embeddings`. -/

/-- A point persisted in the backend (`PointStruct`): positional id, vector,
and the chunk payload (the payload dict's fields are exactly the chunk's
fields plus `searchable_text`, a lowercasing of `content` derived from the
chunk and not separately modelled). -/
structure VecPoint where
  id : Nat
  vector : List ℚ
  chunk : CodeChunk
deriving DecidableEq, Repr

/-- `QdrantVectorStore.generate_embeddings` (lines 73-88): on encoder success
return its vectors, on failure return `len(texts)` zero-vectors of the model
dimension (never raises). -/
def generateEmbeddings (enc : Option (List (List ℚ))) (dim : Nat) (texts : List Str) :
    List (List ℚ) :=
  match enc with
  | some es => es
  | none => List.replicate texts.length (List.replicate dim 0)

/-- `all(v == 0.0 for v in embedding)`. -/
def allZero (v : List ℚ) : Bool := v.all (fun x => x == 0)

/-- The point-building loop of `index_chunks` (lines 109-128):
`enumerate(zip(chunks, embeddings))` with `id = i`, skipping all-zero
embeddings. -/
def buildPoints (chunks : List CodeChunk) (embeds : List (List ℚ)) : List VecPoint :=
  ((chunks.zip embeds).enum).filterMap fun ie =>
    if allZero ie.2.2 then none else some ⟨ie.1, ie.2.2, ie.2.1⟩

/-- Qdrant `upsert` of a single point: replace the stored point with the same
id, or append. -/
def upsertPoint (store : List VecPoint) (p : VecPoint) : List VecPoint :=
  if store.any (fun q => q.id == p.id) then
    store.map (fun q => if q.id == p.id then p else q)
  else store ++ [p]

/-- `QdrantVectorStore.index_chunks` (lines 90-150) against a backend state:
empty input short-circuits to 0; otherwise embed, build points, upsert, and
return the indexed count.  The source upserts in batches of 100 and counts
per successful batch; with the backend modelled as accepting every upsert,
the batched loop is observationally the sequential fold over all points and
the count is the number of points. -/
def indexChunks (store : List VecPoint) (enc : Option (List (List ℚ))) (dim : Nat)
    (chunks : List CodeChunk) : List VecPoint × Nat :=
  if chunks.isEmpty then (store, 0)
  else
    ((buildPoints chunks (generateEmbeddings enc dim (chunks.map CodeChunk.content))).foldl
        upsertPoint store,
      (buildPoints chunks (generateEmbeddings enc dim (chunks.map CodeChunk.content))).length)

/-- `QdrantVectorStore.search`: the backend returns the `limit` stored points
ranked by similarity to the query vector (similarity function abstract). -/
def qdrantSearch (sim : List ℚ → List ℚ → ℚ) (pts : List VecPoint) (qv : List ℚ)
    (topK : Nat) : List SearchResult :=
  (sortDesc (pts.map fun p => ⟨p.id, sim qv p.vector⟩)).take topK

/-! ### C4: whole-batch embedding failure -/

/-- C4: when the encoder fails for the whole batch, `generate_embeddings`
returns one zero-vector of the model dimension per input text, and
`index_chunks` consequently skips every chunk, upserts nothing, and
returns 0. -/
theorem c4_embedding_failure (dim : Nat) (texts : List Str)
    (chunks : List CodeChunk) (store : List VecPoint) :
    (generateEmbeddings none dim texts).length = texts.length ∧
    (∀ v ∈ generateEmbeddings none dim texts, v = List.replicate dim 0) ∧
    indexChunks store none dim chunks = (store, 0) := by
  refine ⟨by simp [generateEmbeddings], ?_, ?_⟩
  · intro v hv
    simp only [generateEmbeddings] at hv
    exact (List.mem_replicate.1 hv).2
  · by_cases hc : chunks.isEmpty
    · simp [indexChunks, hc]
    · rw [indexChunks, if_neg (by simp [hc])]
      have hpts : buildPoints chunks
          (generateEmbeddings none dim (chunks.map CodeChunk.content)) = [] := by
        apply List.filterMap_eq_nil_iff.2
        intro ie hie
        have hzip : ie.2 ∈ chunks.zip (generateEmbeddings none dim
            (chunks.map CodeChunk.content)) := by
          rw [List.enum_eq_zip_range] at hie
          have := List.of_mem_zip (a := ie.1) (b := ie.2) (by simpa using hie)
          exact this.2
        have hemb : ie.2.2 ∈ generateEmbeddings none dim (chunks.map CodeChunk.content) :=
          (List.of_mem_zip (a := ie.2.1) (b := ie.2.2) (by simpa using hzip)).2
        simp only [generateEmbeddings] at hemb
        have hrep : ie.2.2 = List.replicate dim 0 := (List.mem_replicate.1 hemb).2
        have hz : allZero ie.2.2 = true := by
          rw [hrep]
          apply List.all_eq_true.2
          intro x hx
          rw [(List.mem_replicate.1 hx).2]
          rfl
        rw [if_pos hz]
      rw [hpts]
      rfl

/-! ### C9: what re-indexing actually replaces -/

lemma mem_upsertPoint_self (store : List VecPoint) (p : VecPoint) :
    p ∈ upsertPoint store p := by
  rw [upsertPoint]
  split
  · rename_i hany
    rcases List.any_eq_true.1 hany with ⟨t, ht, htid⟩
    exact List.mem_map.2 ⟨t, ht, by rw [if_pos htid]⟩
  · exact List.mem_append_right _ (by simp)

lemma mem_upsertPoint_of_ne (store : List VecPoint) (p q : VecPoint)
    (hp : p ∈ store) (hne : q.id ≠ p.id) : p ∈ upsertPoint store q := by
  rw [upsertPoint]
  split
  · refine List.mem_map.2 ⟨p, hp, ?_⟩
    have hne' : ¬((p.id == q.id) = true) := by
      simp only [beq_iff_eq]
      exact fun h => hne h.symm
    rw [if_neg hne']
  · exact List.mem_append_left _ hp

lemma mem_foldl_upsert_of_ne (ps : List VecPoint) :
    ∀ (store : List VecPoint) (p : VecPoint), p ∈ store → (∀ q ∈ ps, q.id ≠ p.id) →
      p ∈ ps.foldl upsertPoint store := by
  induction ps with
  | nil => intro store p hp _; exact hp
  | cons q qs ih =>
    intro store p hp hq
    exact ih _ p (mem_upsertPoint_of_ne store p q hp (hq q (by simp)))
      (fun r hr => hq r (by simp [hr]))

lemma mem_foldl_upsert_self (ps : List VecPoint) :
    ∀ (store : List VecPoint) (q : VecPoint), q ∈ ps → (ps.map VecPoint.id).Nodup →
      q ∈ ps.foldl upsertPoint store := by
  induction ps with
  | nil => intro _ _ h _; cases h
  | cons r rs ih =>
    intro store q hq hnd
    rw [List.map_cons, List.nodup_cons] at hnd
    rw [List.foldl_cons]
    rcases List.mem_cons.1 hq with rfl | hq
    · exact mem_foldl_upsert_of_ne rs (upsertPoint store q) q
        (mem_upsertPoint_self store q)
        (fun t ht htid => hnd.1 (htid ▸ List.mem_map_of_mem _ ht))
    · exact ih _ q hq hnd.2

lemma buildPoints_map_id (l : List (Nat × (CodeChunk × List ℚ))) :
    (l.filterMap fun ie =>
      if allZero ie.2.2 then none else some (⟨ie.1, ie.2.2, ie.2.1⟩ : VecPoint)).map
        VecPoint.id
      = (l.filter fun ie => !allZero ie.2.2).map Prod.fst := by
  induction l with
  | nil => rfl
  | cons a t ih =>
    rw [List.filterMap_cons, List.filter_cons]
    by_cases hz : allZero a.2.2
    · simp only [hz, if_pos, Bool.not_true]
      simpa using ih
    · simp only [hz, if_neg, Bool.not_false, List.map_cons]
      rw [if_neg (by simp [hz]), List.map_cons]
      simpa using ih

lemma buildPoints_ids_nodup (chunks : List CodeChunk) (embeds : List (List ℚ)) :
    ((buildPoints chunks embeds).map VecPoint.id).Nodup := by
  rw [buildPoints, buildPoints_map_id]
  have hsub : ((chunks.zip embeds).enum.filter fun ie => !allZero ie.2.2).map Prod.fst
      |>.Sublist ((chunks.zip embeds).enum.map Prod.fst) :=
    List.Sublist.map _ (List.filter_sublist _)
  rw [List.enum_map_fst] at hsub
  exact List.Pairwise.imp ne_of_lt
    (List.Pairwise.sublist hsub (List.pairwise_lt_range _))

/-- C9 (counterexample): indexing two chunks of file `A.py` stores them at
positional ids 0 and 1; re-indexing one chunk of a *different* file `B.py`
overwrites point id 0, so file A's first point is gone — replacement is not
keyed by file path. -/
theorem c9_counterexample :
    (⟨0, [1], ⟨"a0".data, "A.py".data, 1, 1, "code_block".data⟩⟩ : VecPoint) ∈
      (indexChunks [] (some [[1], [1]]) 1
        [⟨"a0".data, "A.py".data, 1, 1, "code_block".data⟩,
         ⟨"a1".data, "A.py".data, 2, 2, "code_block".data⟩]).1 ∧
    ("A.py".data : Str) ≠ "B.py".data ∧
    (⟨0, [1], ⟨"a0".data, "A.py".data, 1, 1, "code_block".data⟩⟩ : VecPoint) ∉
      (indexChunks
        (indexChunks [] (some [[1], [1]]) 1
          [⟨"a0".data, "A.py".data, 1, 1, "code_block".data⟩,
           ⟨"a1".data, "A.py".data, 2, 2, "code_block".data⟩]).1
        (some [[1]]) 1 [⟨"b0".data, "B.py".data, 1, 1, "code_block".data⟩]).1 := by
  decide

/-- C9 (amended): `index_chunks` replaces stored points keyed by *positional
integer id* (0..n-1 over the submitted chunk list), regardless of file path:
every stored point whose id is not among the new point ids survives
unchanged, and every newly built point is present afterwards. -/
theorem c9_positional_replacement (store : List VecPoint) (enc : Option (List (List ℚ)))
    (dim : Nat) (chunks : List CodeChunk) :
    (∀ p ∈ store,
      p.id ∉ (buildPoints chunks
        (generateEmbeddings enc dim (chunks.map CodeChunk.content))).map VecPoint.id →
      p ∈ (indexChunks store enc dim chunks).1) ∧
    (∀ q ∈ buildPoints chunks (generateEmbeddings enc dim (chunks.map CodeChunk.content)),
      q ∈ (indexChunks store enc dim chunks).1) := by
  by_cases hc : chunks.isEmpty
  · have hb : buildPoints chunks
        (generateEmbeddings enc dim (chunks.map CodeChunk.content)) = [] := by
      have : chunks = [] := by simpa using hc
      subst this
      rfl
    rw [indexChunks, if_pos hc]
    exact ⟨fun p hp _ => hp, fun q hq => absurd (hb ▸ hq) (by simp)⟩
  · rw [indexChunks, if_neg (by simp [hc])]
    constructor
    · intro p hp hid
      apply mem_foldl_upsert_of_ne _ _ p hp
      intro q hq hqid
      exact hid (hqid ▸ List.mem_map_of_mem _ hq)
    · intro q hq
      exact mem_foldl_upsert_self _ _ q hq (buildPoints_ids_nodup _ _)

/-- Witness for C9 (amended): a stored point with id 5 survives indexing one
new chunk (which lands at id 0), and the new point is present. -/
theorem c9_positional_replacement_witness :
    (⟨5, [1], ⟨"z".data, "Z.py".data, 9, 9, "code_block".data⟩⟩ : VecPoint) ∈
      (indexChunks [⟨5, [1], ⟨"z".data, "Z.py".data, 9, 9, "code_block".data⟩⟩]
        (some [[1]]) 1 [⟨"b0".data, "B.py".data, 1, 1, "code_block".data⟩]).1 ∧
    (⟨0, [1], ⟨"b0".data, "B.py".data, 1, 1, "code_block".data⟩⟩ : VecPoint) ∈
      (indexChunks [⟨5, [1], ⟨"z".data, "Z.py".data, 9, 9, "code_block".data⟩⟩]
        (some [[1]]) 1 [⟨"b0".data, "B.py".data, 1, 1, "code_block".data⟩]).1 :=
  ⟨(c9_positional_replacement _ _ _ _).1 _ (by decide) (by decide),
   (c9_positional_replacement _ _ _ _).2 _ (by decide)⟩

/-! ### BM25 keyword index (`BM25Retriever` plus the `rank_bm25.BM25Okapi`
collaborator)

`BM25Okapi` (default parameters `k1 = 1.5`, `b = 0.75`, `epsilon = 0.25`) is
pure arithmetic over token counts except for `math.log`; the model takes the
logarithm as an abstract function `lg`, with the single ordering fact a claim
needs (`log (1/2) < log (3/2)`) assumed where required. -/

/-- Number of corpus documents containing the word (`nd[word]`). -/
def ndFreq (corpus : List (List Str)) (w : Str) : Nat :=
  corpus.countP (fun d => d.contains w)

/-- `idf = log(corpus_size - freq + 0.5) - log(freq + 0.5)`. -/
def rawIdf (lg : ℚ → ℚ) (n nf : Nat) : ℚ :=
  lg ((n : ℚ) - (nf : ℚ) + 1 / 2) - lg ((nf : ℚ) + 1 / 2)

/-- The distinct words of the corpus (the keys of the `idf` dict; Python's
insertion order is irrelevant because only the sum and the count are used). -/
def vocabL (corpus : List (List Str)) : List Str := corpus.flatten.dedup

/-- `average_idf = idf_sum / len(self.idf)` (an empty vocabulary would raise
`ZeroDivisionError` in the source; every indexed corpus is non-empty). -/
def avgIdf (lg : ℚ → ℚ) (corpus : List (List Str)) : ℚ :=
  ((vocabL corpus).map (fun w => rawIdf lg corpus.length (ndFreq corpus w))).sum /
    ((vocabL corpus).length : ℚ)

/-- `self.idf.get(q) or 0`: a negative raw idf is replaced by
`epsilon * average_idf` with `epsilon = 0.25`; an out-of-vocabulary word
scores 0. -/
def idfOf (lg : ℚ → ℚ) (corpus : List (List Str)) (w : Str) : ℚ :=
  if corpus.flatten.contains w then
    if rawIdf lg corpus.length (ndFreq corpus w) < 0 then (1 / 4) * avgIdf lg corpus
    else rawIdf lg corpus.length (ndFreq corpus w)
  else 0

/-- `avgdl = num_doc / corpus_size`. -/
def avgdl (corpus : List (List Str)) : ℚ :=
  ((corpus.map (fun d => (d.length : ℚ))).sum) / (corpus.length : ℚ)

/-- One term of `BM25Okapi.get_scores`:
`idf * (tf * (k1+1)) / (tf + k1 * (1 - b + b * dl / avgdl))` with `k1 = 3/2`,
`b = 3/4`. -/
def okapiTermScore (lg : ℚ → ℚ) (corpus : List (List Str)) (doc : List Str)
    (q : Str) : ℚ :=
  idfOf lg corpus q * ((doc.count q : ℚ) * (3 / 2 + 1)) /
    ((doc.count q : ℚ) + (3 / 2) * (1 - 3 / 4 + (3 / 4) * ((doc.length : ℚ) / avgdl corpus)))

/-- `BM25Okapi.get_scores(query)`: per document, the sum over query tokens. -/
def okapiScores (lg : ℚ → ℚ) (corpus : List (List Str)) (query : List Str) : List ℚ :=
  corpus.map fun doc => (query.map (okapiTermScore lg corpus doc)).sum

/-- Stable ascending insertion of an index by score (ties keep the earlier
index first). -/
def insertAsc (key : Nat → ℚ) (i : Nat) : List Nat → List Nat
  | [] => [i]
  | j :: js => if key j < key i then j :: insertAsc key i js else i :: j :: js

/-- Stable ascending index sort. -/
def sortAscIdx (key : Nat → ℚ) : List Nat → List Nat
  | [] => []
  | i :: is => insertAsc key i (sortAscIdx key is)

/-- Model of `numpy.argsort` (ascending; numpy's default sort does not
guarantee tie order and no claim depends on it, so a stable sort is used). -/
def argsortQ (scores : List ℚ) : List Nat :=
  sortAscIdx (fun i => scores.getD i 0) (List.range scores.length)

/-- Python `l[-k:]`: the last `k` elements — and the *whole* list when
`k = 0`, since `l[-0:]` is `l[0:]`. -/
def lastSlice (k : Nat) (l : List Nat) : List Nat :=
  if k = 0 then l else l.drop (l.length - k)

/-- `BM25Retriever.search` (lines 75-120) for a built index with corpus
`corpus` and id table `docIds`: tokenize the query (returning `[]` when no
token survives), score with BM25Okapi, take `argsort()[-top_k:][::-1]`, and
keep only results with positive score.  (`docIds.getD _ 0` stands for
`self.doc_ids[idx]`, which the source only evaluates on positive-score
indices; for the empty-index placeholder state `doc_ids` is never read
because no score is positive.) -/
def bm25Search (lg : ℚ → ℚ) (corpus : List (List Str)) (docIds : List Nat)
    (query : Str) (topK : Nat) : List SearchResult :=
  if pyTokenize query = [] then []
  else
    ((lastSlice topK (argsortQ (okapiScores lg corpus (pyTokenize query)))).reverse).filterMap
      fun i =>
        if 0 < (okapiScores lg corpus (pyTokenize query)).getD i 0 then
          some ⟨docIds.getD i 0, (okapiScores lg corpus (pyTokenize query)).getD i 0⟩
        else none

/-- The degenerate corpus `BM25Okapi([["empty"]])` that `_build_index` installs
when the store holds no documents (line 40); `doc_ids` stays empty. -/
def emptyIndexCorpus : List (List Str) := [["empty".data]]

/-- `HybridRetriever.search` (lines 155-208): overfetch `3 * top_k` from both
sub-indexes, fuse, stable-sort descending, truncate to `top_k` (the payload
backfill step does not change ids or scores and is omitted). -/
def hybridSearch (lg : ℚ → ℚ) (corpus : List (List Str)) (docIds : List Nat)
    (sim : List ℚ → List ℚ → ℚ) (pts : List VecPoint) (query : Str) (qv : List ℚ)
    (alpha : ℚ) (topK : Nat) : List SearchResult :=
  (hybridFuseRank (bm25Search lg corpus docIds query (topK * 3))
    (qdrantSearch sim pts qv (topK * 3)) alpha).take topK

/-! ### C5: searching an empty index -/

lemma getD_nonpos (l : List ℚ) (h : ∀ s ∈ l, s ≤ 0) (i : Nat) : l.getD i 0 ≤ 0 := by
  induction l generalizing i with
  | nil => cases i <;> simp
  | cons a t ih =>
    cases i with
    | zero => simpa using h a (by simp)
    | succ j => simpa using ih (fun s hs => h s (by simp [hs])) j

/-- On the placeholder corpus every BM25 score is non-positive: a query token
other than `"empty"` has zero term frequency, and `"empty"` itself carries the
negative `epsilon * average_idf` idf (since `log(0.5) - log(1.5) < 0`). -/
lemma emptyIndex_scores_nonpos (lg : ℚ → ℚ) (hlg : lg (1 / 2) < lg (3 / 2))
    (toks : List Str) : ∀ s ∈ okapiScores lg emptyIndexCorpus toks, s ≤ 0 := by
  intro s hs
  rw [okapiScores] at hs
  rcases List.mem_map.1 hs with ⟨doc, hdoc, rfl⟩
  have hdoc' : doc = ["empty".data] := by simpa [emptyIndexCorpus] using hdoc
  subst hdoc'
  have hterm : ∀ q ∈ toks.map (okapiTermScore lg emptyIndexCorpus ["empty".data]), q ≤ 0 := by
    intro v hv
    rcases List.mem_map.1 hv with ⟨t, _, rfl⟩
    by_cases ht : t = "empty".data
    · subst ht
      have hraw : rawIdf lg emptyIndexCorpus.length (ndFreq emptyIndexCorpus "empty".data)
          < 0 := by
        have h1 : ndFreq emptyIndexCorpus "empty".data = 1 := by decide
        rw [h1]
        show lg ((1 : ℚ) - (1 : ℚ) + 1 / 2) - lg ((1 : ℚ) + 1 / 2) < 0
        norm_num
        linarith
      have hidf : idfOf lg emptyIndexCorpus "empty".data =
          (1 / 4) * avgIdf lg emptyIndexCorpus := by
        rw [idfOf, if_pos (by decide), if_pos hraw]
      have havg : avgIdf lg emptyIndexCorpus =
          rawIdf lg emptyIndexCorpus.length (ndFreq emptyIndexCorpus "empty".data) := by
        rw [avgIdf]
        norm_num [vocabL, emptyIndexCorpus]
      have hidf_neg : idfOf lg emptyIndexCorpus "empty".data ≤ 0 := by
        rw [hidf, havg]
        linarith
      rw [okapiTermScore]
      apply div_nonpos_iff.2
      refine Or.inr ⟨?_, ?_⟩
      · apply mul_nonpos_iff.2
        refine Or.inr ⟨hidf_neg, ?_⟩
        positivity
      · have hcnt : (["empty".data] : List Str).count "empty".data = 1 := by decide
        rw [hcnt]
        have h2 : avgdl emptyIndexCorpus = 1 := by
          rw [avgdl]
          simp [emptyIndexCorpus]
        rw [h2]
        norm_num
    · have hcount : (["empty".data] : List Str).count t = 0 := by
        apply List.count_eq_zero.2
        intro hmem
        exact ht (by simpa using hmem)
      rw [okapiTermScore, hcount]
      norm_num
  have := List.sum_le_card_nsmul (toks.map (okapiTermScore lg emptyIndexCorpus
    ["empty".data])) 0 (by simpa using hterm)
  simpa using this

/-- C5: with zero indexed chunks, all three search paths return the empty
list for every query, `top_k`, similarity function and fusion weight: the
BM25 placeholder index never produces a positive score, the vector search has
no points, and the hybrid fusion of two empty candidate lists is empty. -/
theorem c5_empty_index_searches (lg : ℚ → ℚ) (hlg : lg (1 / 2) < lg (3 / 2))
    (query : Str) (k : Nat) (sim : List ℚ → List ℚ → ℚ) (qv : List ℚ) (alpha : ℚ) :
    bm25Search lg emptyIndexCorpus [] query k = [] ∧
    qdrantSearch sim [] qv k = [] ∧
    hybridSearch lg emptyIndexCorpus [] sim [] query qv alpha k = [] := by
  have hbm : ∀ k' : Nat, bm25Search lg emptyIndexCorpus [] query k' = [] := by
    intro k'
    rw [bm25Search]
    split
    · rfl
    · apply List.filterMap_eq_nil_iff.2
      intro i _
      rw [if_neg]
      intro hpos
      exact absurd hpos (not_lt.2 (getD_nonpos _
        (emptyIndex_scores_nonpos lg hlg (pyTokenize query)) i))
  have hqd : ∀ k' : Nat, qdrantSearch sim [] qv k' = [] := fun k' => by
    simp [qdrantSearch, sortDesc]
  refine ⟨hbm k, hqd k, ?_⟩
  rw [hybridSearch, hbm (k * 3), hqd (k * 3)]
  simp [hybridFuseRank, fuseScores, normalizeScores, sortDesc]

/-- Witness for C5 with `lg` instantiated to a concrete monotone stand-in. -/
theorem c5_empty_index_searches_witness :
    bm25Search (fun x => x) emptyIndexCorpus [] "find the empty handler".data 5 = [] ∧
    qdrantSearch (fun _ _ => 0) [] [1, 0] 5 = [] ∧
    hybridSearch (fun x => x) emptyIndexCorpus [] (fun _ _ => 0) []
      "find the empty handler".data [1, 0] (3 / 10) 5 = [] :=
  c5_empty_index_searches (fun x => x) (by norm_num) _ 5 _ _ _

/-! ### C10: queries with no viable token -/

/-- C10: a query none of whose whitespace-separated words is alphanumeric
with length at least 2 tokenizes to `[]`, so `BM25Retriever.search` returns
the empty list for every corpus, id table and `top_k`. -/
theorem c10_no_valid_tokens (lg : ℚ → ℚ) (corpus : List (List Str)) (docIds : List Nat)
    (query : Str) (k : Nat)
    (h : ∀ w ∈ wsplit query, ¬(2 ≤ w.length ∧ pyIsAlnum w = true)) :
    bm25Search lg corpus docIds query k = [] := by
  have htok : pyTokenize query = [] := by
    rw [pyTokenize]
    have hfil : (wsplit query).filter
        (fun w => decide (2 ≤ w.length) && pyIsAlnum w) = [] := by
      apply List.filter_eq_nil_iff.2
      intro w hw
      simp only [Bool.and_eq_true, decide_eq_true_eq]
      exact fun hc => h w hw ⟨hc.1, hc.2⟩
    rw [hfil]
    rfl
  rw [bm25Search, if_pos htok]

/-- Witness for C10: a punctuation-and-short-words query returns no results
on a non-trivial corpus. -/
theorem c10_no_valid_tokens_witness :
    bm25Search (fun x => x) [["hello".data, "world".data]] [7] "a ?? -x !".data 5 = [] :=
  c10_no_valid_tokens (fun x => x) _ _ _ 5 (by decide)

end Synapse
